import Mathlib

/-!
Shallow embedding of the changement monorepo release-management tool
(src/main.rs, src/graph.rs, src/project.rs) together with proofs about
its bump-propagation algorithm, graph engine, and version writer.

Rust HashMap values are embedded as association lists: HashMap::insert,
HashMap::get and HashMap::contains_key become insertA, findA and containsA.
Panicking operations (out-of-range indexing, .expect) are embedded as
Option with none for the panic, and functions returning anyhow::Result
are embedded as Except String.  Semantic-version parsing is an external
library capability (spec section 1), so versions appear already parsed.
-/

namespace Changement

/-- Association-list lookup, embedding HashMap::get. -/
def findA {β : Type} : List (String × β) → String → Option β
  | [], _ => none
  | (k, v) :: rest, key => if k = key then some v else findA rest key

/-- Association-list insert-or-replace, embedding HashMap::insert. -/
def insertA {β : Type} : List (String × β) → String → β → List (String × β)
  | [], key, val => [(key, val)]
  | (k, v) :: rest, key, val =>
    if k = key then (key, val) :: rest else (k, v) :: insertA rest key val

/-- Association-list membership test, embedding HashMap::contains_key. -/
def containsA {β : Type} (m : List (String × β)) (key : String) : Bool :=
  (findA m key).isSome

/-- Severity of a version bump, from BumpType in src/main.rs. -/
inductive BumpType where
  | Major
  | Minor
  | Patch
deriving DecidableEq, Fintype

/-- BumpType::is_greater_than from src/main.rs lines 48-54. -/
def BumpType.is_greater_than : BumpType → BumpType → Bool
  | .Major, .Minor => true
  | .Major, .Patch => true
  | .Minor, .Patch => true
  | _, _ => false

/-- The binary maximum induced by is_greater_than: keep the first argument
unless the second is strictly greater, as the direct pass of
calculate_version_bumps does with an existing and an incoming severity. -/
def maxSev (a b : BumpType) : BumpType :=
  if b.is_greater_than a then b else a

/-- Numeric rank of a severity: Major > Minor > Patch. -/
def rank : BumpType → Nat
  | .Major => 2
  | .Minor => 1
  | .Patch => 0

/-- A parsed semantic version (major.minor.patch); parsing and printing are
the external semver library capability. -/
structure Version where
  major : Nat
  minor : Nat
  patch : Nat
deriving DecidableEq

/-- The manifest fields of src/main.rs PackageJson that the version command
consumes.  The version string has already been parsed by the external
semver library; dependency map values are the raw constraint strings. -/
structure PackageJson where
  name : String
  version : Version
  dependencies : List (String × String)
  dev_dependencies : List (String × String)
  peer_dependencies : List (String × String)
deriving DecidableEq

/-- A parsed change record, from ChangeEntry in src/main.rs. -/
structure ChangeEntry where
  packages : List (String × BumpType)
  file_path : String
deriving DecidableEq

/-- The chained dependency keys scanned by the transitive pass:
dependencies.keys().chain(dev_dependencies.keys()).chain(peer_dependencies.keys()). -/
def depKeys (pj : PackageJson) : List String :=
  pj.dependencies.map Prod.fst ++ pj.dev_dependencies.map Prod.fst ++
    pj.peer_dependencies.map Prod.fst

/-- One step of the direct pass of calculate_version_bumps (src/main.rs
lines 305-314): record a severity requested for one package. -/
def directInsert (packages : List (String × PackageJson))
    (vb : List (String × BumpType)) (name : String) (bump : BumpType) :
    List (String × BumpType) :=
  if containsA packages name then
    match findA vb name with
    | none => insertA vb name bump
    | some existing =>
      if bump.is_greater_than existing then insertA vb name bump else vb
  else vb

/-- The inner loop of the direct pass over the (package, severity)
pairs of one record. -/
def directFoldPairs (packages : List (String × PackageJson))
    (vb : List (String × BumpType)) (pairs : List (String × BumpType)) :
    List (String × BumpType) :=
  pairs.foldl (fun vb pb => directInsert packages vb pb.1 pb.2) vb

/-- The direct pass of calculate_version_bumps: collect the maximal severity
requested for each known package across all change records. -/
def directPass (changes : List ChangeEntry)
    (packages : List (String × PackageJson)) : List (String × BumpType) :=
  changes.foldl (fun vb change => directFoldPairs packages vb change.packages) []

/-- The inner dependency scan of one transitive pass (src/main.rs lines
326-339): current is the clone taken at the start of the pass, vb the live
map being updated. -/
def passDeps (current : List (String × BumpType)) (pname : String) :
    List String → List (String × BumpType) → Bool →
    List (String × BumpType) × Bool
  | [], vb, changed => (vb, changed)
  | dep :: rest, vb, changed =>
    match findA current dep with
    | none => passDeps current pname rest vb changed
    | some dep_bump =>
      match findA vb pname with
      | none => passDeps current pname rest (insertA vb pname dep_bump) true
      | some existing =>
        if dep_bump.is_greater_than existing then
          passDeps current pname rest (insertA vb pname dep_bump) true
        else
          passDeps current pname rest vb changed

/-- The scan over all workspaces within one transitive pass. -/
def passPkgs (current : List (String × BumpType)) :
    List (String × PackageJson) → List (String × BumpType) → Bool →
    List (String × BumpType) × Bool
  | [], vb, changed => (vb, changed)
  | (pname, pj) :: rest, vb, changed =>
    let r := passDeps current pname (depKeys pj) vb changed
    passPkgs current rest r.1 r.2

/-- One full transitive pass: clone the map, reset changed to false, scan
the dependency keys of every workspace. -/
def onePass (packages : List (String × PackageJson))
    (vb : List (String × BumpType)) : List (String × BumpType) × Bool :=
  passPkgs vb packages vb false

/-- The while loop of the transitive phase (src/main.rs lines 317-341):
while changed and iteration below 100, run one pass.  The fuel argument is
only structural; starting from fuel 101 it never runs out because each
round requires iteration below 100. -/
def transLoop (packages : List (String × PackageJson)) :
    Nat → Nat → Bool → List (String × BumpType) →
    Nat × List (String × BumpType)
  | 0, iteration, _, vb => (iteration, vb)
  | fuel + 1, iteration, changed, vb =>
    if changed = true ∧ iteration < 100 then
      transLoop packages fuel (iteration + 1) (onePass packages vb).2
        (onePass packages vb).1
    else (iteration, vb)

/-- The error message of src/main.rs line 344. -/
def cycleErrorMsg : String :=
  "Dependency calculation exceeded maximum iterations (possible circular dependency)"

/-- calculate_version_bumps from src/main.rs lines 298-348. -/
def calculate_version_bumps (changes : List ChangeEntry)
    (packages : List (String × PackageJson)) :
    Except String (List (String × BumpType)) :=
  if (transLoop packages 101 0 true (directPass changes packages)).1 ≥ 100 then
    Except.error cycleErrorMsg
  else
    Except.ok (transLoop packages 101 0 true (directPass changes packages)).2

/-- The new version computed by apply_version_bumps (src/main.rs lines
358-362): Major increments major and zeroes minor and patch, Minor
increments minor and zeroes patch, Patch increments patch. -/
def bumped : BumpType → Version → Version
  | .Major, v => ⟨v.major + 1, 0, 0⟩
  | .Minor, v => ⟨v.major, v.minor + 1, 0⟩
  | .Patch, v => ⟨v.major, v.minor, v.patch + 1⟩

/-- apply_version_bumps from src/main.rs lines 350-376: for each entry of
the severity map whose package is known, replace its stored version with
the bumped one (manifest persistence is external I/O). -/
def apply_version_bumps (packages : List (String × PackageJson))
    (version_bumps : List (String × BumpType)) :
    List (String × PackageJson) :=
  version_bumps.foldl
    (fun pkgs nb =>
      match findA pkgs nb.1 with
      | none => pkgs
      | some pj =>
        insertA pkgs nb.1 { pj with version := bumped nb.2 pj.version })
    packages

/-- The observable outcome of the version command: whether bumps were
applied and which change-record files were deleted. -/
structure VersionOutcome where
  applied : Bool
  deleted_files : List String
deriving DecidableEq

/-- The decision structure of version_command (src/main.rs lines 149-195)
after reading the ledger and discovering packages: empty ledger returns at
once; an empty computed bump map returns success deleting nothing; else
bumps are applied and every parsed change-record file is removed. -/
def version_command (changes : List ChangeEntry)
    (packages : List (String × PackageJson)) : Except String VersionOutcome :=
  if changes.isEmpty then Except.ok ⟨false, []⟩
  else
    match calculate_version_bumps changes packages with
    | Except.error e => Except.error e
    | Except.ok version_bumps =>
      if version_bumps.isEmpty then Except.ok ⟨false, []⟩
      else Except.ok ⟨true, changes.map (fun c => c.file_path)⟩

/-- find_workspace_packages from src/main.rs lines 278-296: each candidate
subdirectory manifest arrives with its serde parse outcome; a successful
parse is inserted under its name, a failed parse is silently passed over
and the scan continues.  No warning channel exists in the code. -/
def find_workspace_packages (entries : List (Option PackageJson))
    (packages : List (String × PackageJson)) : List (String × PackageJson) :=
  entries.foldl
    (fun pkgs e =>
      match e with
      | some pj => insertA pkgs pj.name pj
      | none => pkgs)
    packages

/-- The manifest fields parsed by src/project.rs PackageJson. -/
structure PackageJsonP where
  name : Option String
  version : Option Version
  workspaces : List String
deriving DecidableEq

/-- The node-creation phase of Project::new (src/project.rs lines 16-35):
every discovered manifest is parsed with .expect, so a single parse
failure panics and aborts the whole construction (embedded as none). -/
def project_new_nodes : List (String × Option PackageJsonP) →
    Option (List (String × PackageJsonP))
  | [] => some []
  | (_, none) :: _ => none
  | (dir, some pj) :: rest =>
    match project_new_nodes rest with
    | none => none
    | some nodes => some ((dir, pj) :: nodes)

/-- Edge direction tag, from src/graph.rs. -/
inductive Direction where
  | Outgoing
  | Incoming
deriving DecidableEq

/-- An edge record of the arena: target node index, direction tag, and the
intrusive link to the next edge record of the same source node. -/
structure Edge where
  target : Nat
  direction : Direction
  next_edge : Option Nat
deriving DecidableEq

/-- A node of the arena: payload plus the handle of its first edge record. -/
structure Node (T : Type) where
  data : T
  first_edge : Option Nat

/-- The graph arena of src/graph.rs: a flat node array and a flat edge
array. -/
structure Graph (T : Type) where
  nodes : List (Node T)
  edges : List Edge

/-- Graph::new. -/
def Graph.empty {T : Type} : Graph T := ⟨[], []⟩

/-- Graph::add_node: append a node with no edges, return it with the new
stable index. -/
def Graph.add_node {T : Type} (g : Graph T) (data : T) : Graph T × Nat :=
  (⟨g.nodes ++ [⟨data, none⟩], g.edges⟩, g.nodes.length)

/-- Graph::get_node: bounds-checked node access. -/
def Graph.get_node {T : Type} (g : Graph T) (index : Nat) : Option (Node T) :=
  g.nodes[index]?

/-- Graph::add_edge (src/graph.rs lines 31-42): indexing self.nodes[source]
panics when source is out of range (none); otherwise the edge record is
appended and spliced onto the head of the intrusive list of the source.  The
target index is not checked. -/
def Graph.add_edge {T : Type} (g : Graph T) (source target : Nat)
    (direction : Direction) : Option (Graph T) :=
  match g.nodes[source]? with
  | none => none
  | some node =>
    some ⟨g.nodes.set source { node with first_edge := some g.edges.length },
          g.edges ++ [⟨target, direction, node.first_edge⟩]⟩

/-- The list of targets yielded by the Edges iterator (src/graph.rs lines
82-105), collected in order: walk the intrusive list, skip records whose
direction does not match, yield matching targets.  fuel is structural
only; since every next_edge link points to an earlier record, fuel equal
to the edge-array length always suffices. -/
def edgeTargets (edges : List Edge) (direction : Direction) :
    Nat → Option Nat → List Nat
  | _, none => []
  | 0, some _ => []
  | fuel + 1, some i =>
    match edges[i]? with
    | none => []
    | some e =>
      if e.direction = direction then
        e.target :: edgeTargets edges direction fuel e.next_edge
      else
        edgeTargets edges direction fuel e.next_edge

/-- Graph::edges (src/graph.rs lines 44-51), with the lazy iterator
collected into the list of all yielded targets; indexing
self.nodes[source] panics when source is out of range (none). -/
def Graph.edgesOf {T : Type} (g : Graph T) (source : Nat)
    (direction : Direction) : Option (List Nat) :=
  match g.nodes[source]? with
  | none => none
  | some node => some (edgeTargets g.edges direction g.edges.length node.first_edge)

/-- The chain of targets hanging off node n, or empty when n is absent. -/
def chainOf {T : Type} (g : Graph T) (n : Nat) (d : Direction) : List Nat :=
  match g.nodes[n]? with
  | none => []
  | some node => edgeTargets g.edges d g.edges.length node.first_edge

/-- One mutating call of the graph-building API. -/
inductive GraphOp (T : Type) where
  | addNode (data : T)
  | addEdge (source target : Nat) (direction : Direction)

/-- Run one graph operation; add_edge with an out-of-range source panics. -/
def applyOp {T : Type} (g : Graph T) : GraphOp T → Option (Graph T)
  | .addNode data => some (g.add_node data).1
  | .addEdge s t d => g.add_edge s t d

/-- Run a sequence of graph operations from a starting graph. -/
def applyOps {T : Type} : List (GraphOp T) → Graph T → Option (Graph T)
  | [], g => some g
  | op :: rest, g =>
    match applyOp g op with
    | none => none
    | some g2 => applyOps rest g2

/-- The targets of the edges added for source n with direction d by a
sequence of operations, most recently added first. -/
def addedTargets {T : Type} (ops : List (GraphOp T)) (n : Nat)
    (d : Direction) : List Nat :=
  (ops.filterMap fun op =>
    match op with
    | .addEdge s t d2 => if s = n ∧ d2 = d then some t else none
    | _ => none).reverse

/-- The contribution of a single operation to the chain of node n for
direction d. -/
def opContrib {T : Type} (op : GraphOp T) (n : Nat) (d : Direction) :
    List Nat :=
  match op with
  | .addEdge s t d2 => if s = n ∧ d2 = d then [t] else []
  | _ => []

/-- Every intrusive next_edge link points to a strictly earlier edge
record. -/
def Decr (es : List Edge) : Prop :=
  ∀ (i : Nat) (e : Edge), es[i]? = some e → ∀ j, e.next_edge = some j → j < i

/-- The first-edge handle of every node is in range of the edge array. -/
def FirstEdgeBound {T : Type} (g : Graph T) : Prop :=
  ∀ (n : Nat) (node : Node T), g.nodes[n]? = some node →
    ∀ i, node.first_edge = some i → i < g.edges.length

/-- Well-formedness of a graph built through the public API. -/
def WFGraph {T : Type} (g : Graph T) : Prop :=
  Decr g.edges ∧ FirstEdgeBound g

/-- A severity map is a fixed point of the transitive pass: whenever a
scanned dependency of a workspace holds a severity, the workspace already
holds an equal-or-greater one. -/
def noPending (packages : List (String × PackageJson))
    (vb : List (String × BumpType)) : Prop :=
  ∀ p, p ∈ packages → ∀ dep, dep ∈ depKeys p.2 → ∀ s,
    findA vb dep = some s →
    ∃ s2, findA vb p.1 = some s2 ∧ s.is_greater_than s2 = false

/-- Combine an optional existing severity with an incoming one, keeping
the existing unless the incoming is strictly greater (the update rule of the direct
pass). -/
def maxStep (o : Option BumpType) (s : BumpType) : Option BumpType :=
  match o with
  | none => some s
  | some e => if s.is_greater_than e then some s else some e

/-- Fold maxStep over a list of severities. -/
def maxFold (o : Option BumpType) (l : List BumpType) : Option BumpType :=
  l.foldl maxStep o

/-- The severities a list of (package, severity) pairs requests for one
name. -/
def pairSevs (pairs : List (String × BumpType)) (name : String) :
    List BumpType :=
  (pairs.filter fun pb => pb.1 = name).map Prod.snd

/-- The severities all change records request for one name, in record
order. -/
def sevsChanges (changes : List ChangeEntry) (name : String) :
    List BumpType :=
  changes.foldr (fun c acc => pairSevs c.packages name ++ acc) []

/-! Concrete instances used by witnesses and counterexamples. -/

/-- Package A of the worked example: no dependencies. -/
def pkgA : PackageJson := ⟨"A", ⟨1, 0, 0⟩, [], [], []⟩

/-- Package B of the worked example: depends on A. -/
def pkgB : PackageJson := ⟨"B", ⟨1, 0, 0⟩, [("A", "1.0.0")], [], []⟩

/-- The two-package workspace set of the worked example. -/
def exPackages : List (String × PackageJson) := [("A", pkgA), ("B", pkgB)]

/-- A single change record requesting Patch for A. -/
def exChanges : List ChangeEntry := [⟨[("A", BumpType.Patch)], "chg.md"⟩]

/-- The bump map the worked example computes. -/
def exBumps : List (String × BumpType) :=
  [("A", BumpType.Patch), ("B", BumpType.Patch)]

/-- Package A of the cyclic example: depends on B. -/
def cycA : PackageJson := ⟨"A", ⟨1, 0, 0⟩, [("B", "1.0.0")], [], []⟩

/-- Package B of the cyclic example: depends on A. -/
def cycB : PackageJson := ⟨"B", ⟨1, 0, 0⟩, [("A", "1.0.0")], [], []⟩

/-- A dependency cycle: A depends on B and B depends on A. -/
def cycPackages : List (String × PackageJson) := [("A", cycA), ("B", cycB)]

/-- A change record naming only a package absent from the discovered set. -/
def unkChanges : List ChangeEntry := [⟨[("X", BumpType.Patch)], "x.md"⟩]

/-- A change record requesting Minor for A. -/
def minorChange : ChangeEntry := ⟨[("A", BumpType.Minor)], "m.md"⟩

/-- A change record requesting Patch for A. -/
def patchChange : ChangeEntry := ⟨[("A", BumpType.Patch)], "p.md"⟩

/-- A package at version 1.2.3. -/
def pkg123 : PackageJson := ⟨"P", ⟨1, 2, 3⟩, [], [], []⟩

/-- A one-package workspace set at version 1.2.3. -/
def pkgs123 : List (String × PackageJson) := [("P", pkg123)]

/-- A graph with a single node and no edges. -/
def oneNodeGraph : Graph Bool := ⟨[⟨true, none⟩], []⟩

/-- A concrete build sequence: two nodes, then three edges out of node 0
with mixed directions. -/
def opsW : List (GraphOp Bool) :=
  [.addNode true, .addNode false, .addEdge 0 1 .Outgoing,
   .addEdge 0 1 .Incoming, .addEdge 0 0 .Outgoing]

/-- The graph opsW builds. -/
def gW : Graph Bool :=
  ⟨[⟨true, some 2⟩, ⟨false, none⟩],
   [⟨1, .Outgoing, none⟩, ⟨1, .Incoming, some 0⟩, ⟨0, .Outgoing, some 1⟩]⟩

/-- A parseable manifest for the discovery examples. -/
def pjGood : PackageJsonP := ⟨some "a", some ⟨1, 0, 0⟩, []⟩

/-- Another parseable manifest for the discovery examples. -/
def pjGood2 : PackageJsonP := ⟨some "c", some ⟨2, 0, 0⟩, []⟩

/-! Association-list lemmas. -/

lemma findA_insertA_self {β : Type} (m : List (String × β)) (k : String)
    (v : β) : findA (insertA m k v) k = some v := by
  induction m with
  | nil => simp [insertA, findA]
  | cons hd rest ih =>
    obtain ⟨k2, v2⟩ := hd
    by_cases hk : k2 = k
    · simp [insertA, hk, findA]
    · simp [insertA, hk, findA, ih]

lemma findA_insertA_ne {β : Type} (m : List (String × β)) (k key : String)
    (v : β) (h : k ≠ key) : findA (insertA m k v) key = findA m key := by
  induction m with
  | nil => simp [insertA, findA, h]
  | cons hd rest ih =>
    obtain ⟨k2, v2⟩ := hd
    by_cases hk : k2 = k
    · subst hk
      simp [insertA, findA, h]
    · simp only [insertA, if_neg hk, findA]
      by_cases hk2 : k2 = key
      · rw [if_pos hk2, if_pos hk2]
      · rw [if_neg hk2, if_neg hk2, ih]

/-! Claim C7: the severity order. -/

/-- Claim C7: is_greater_than is a strict total order with
Major > Minor > Patch, and the induced binary maximum maxSev is
idempotent and commutative. -/
theorem claim_C7 :
    (∀ a : BumpType, a.is_greater_than a = false) ∧
    (∀ a b : BumpType, a.is_greater_than b = true →
      b.is_greater_than a = false) ∧
    (∀ a b c : BumpType, a.is_greater_than b = true →
      b.is_greater_than c = true → a.is_greater_than c = true) ∧
    (∀ a b : BumpType, a = b ∨ a.is_greater_than b = true ∨
      b.is_greater_than a = true) ∧
    BumpType.Major.is_greater_than BumpType.Minor = true ∧
    BumpType.Minor.is_greater_than BumpType.Patch = true ∧
    BumpType.Major.is_greater_than BumpType.Patch = true ∧
    (∀ a : BumpType, maxSev a a = a) ∧
    (∀ a b : BumpType, maxSev a b = maxSev b a) := by
  refine ⟨?_, ?_, ?_, ?_, ?_, ?_, ?_, ?_, ?_⟩ <;> decide

/-- Witness for C7: transitivity applied at Major > Minor > Patch. -/
theorem claim_C7_witness :
    BumpType.Major.is_greater_than BumpType.Patch = true :=
  claim_C7.2.2.1 BumpType.Major BumpType.Minor BumpType.Patch
    (by decide) (by decide)

/-! Claim C8: get_node is bounds-checked. -/

/-- Claim C8: get_node on any index at or beyond the number of nodes, so
never returned by add_node, yields none and never faults. -/
theorem claim_C8 {T : Type} (g : Graph T) (i : Nat)
    (h : g.nodes.length ≤ i) : g.get_node i = none := by
  simp [Graph.get_node, List.getElem?_eq_none h]

/-- Witness for C8: the single-node graph at index 5. -/
theorem claim_C8_witness :
    oneNodeGraph.nodes.length ≤ 5 ∧ oneNodeGraph.get_node 5 = none :=
  ⟨by decide, claim_C8 oneNodeGraph 5 (by decide)⟩

/-! Claim C4: the version writer arithmetic. -/

lemma findA_apply_not_mem (bumps : List (String × BumpType))
    (pkgs : List (String × PackageJson)) (name : String)
    (h : ∀ pb ∈ bumps, pb.1 ≠ name) :
    findA (apply_version_bumps pkgs bumps) name = findA pkgs name := by
  induction bumps generalizing pkgs with
  | nil => rfl
  | cons nb rest ih =>
    have hstep : ∀ pkgs2 : List (String × PackageJson),
        apply_version_bumps pkgs2 (nb :: rest) =
          apply_version_bumps
            (match findA pkgs2 nb.1 with
             | none => pkgs2
             | some pj =>
               insertA pkgs2 nb.1 { pj with version := bumped nb.2 pj.version })
            rest := by
      intro pkgs2
      simp [apply_version_bumps]
    rw [hstep]
    have hne : nb.1 ≠ name := h nb (List.mem_cons_self nb rest)
    have hrest : ∀ pb ∈ rest, pb.1 ≠ name := fun pb hm =>
      h pb (List.mem_cons_of_mem nb hm)
    cases hf : findA pkgs nb.1 with
    | none => simp only [hf]; exact ih pkgs hrest
    | some pj =>
      simp only [hf]
      rw [ih _ hrest, findA_insertA_ne _ _ _ _ hne]

lemma findA_apply_version_bumps (bumps : List (String × BumpType))
    (pkgs : List (String × PackageJson)) (name : String) (pj : PackageJson)
    (b : BumpType) (hnd : (bumps.map Prod.fst).Nodup)
    (hb : findA bumps name = some b) (hp : findA pkgs name = some pj) :
    findA (apply_version_bumps pkgs bumps) name =
      some { pj with version := bumped b pj.version } := by
  induction bumps generalizing pkgs with
  | nil => exact absurd hb (by simp [findA])
  | cons nb rest ih =>
    obtain ⟨k, b0⟩ := nb
    rw [List.map_cons, List.nodup_cons] at hnd
    have hstep : apply_version_bumps pkgs ((k, b0) :: rest) =
        apply_version_bumps
          (match findA pkgs k with
           | none => pkgs
           | some pj2 =>
             insertA pkgs k { pj2 with version := bumped b0 pj2.version })
          rest := by
      simp [apply_version_bumps]
    rw [hstep]
    by_cases hk : k = name
    · subst hk
      rw [show findA ((k, b0) :: rest) k = some b0 from by simp [findA]] at hb
      obtain rfl : b0 = b := by injection hb
      rw [hp]
      have hnm : ∀ pb ∈ rest, pb.1 ≠ k := by
        intro pb hm heq
        have hmem : pb.1 ∈ List.map Prod.fst rest :=
          List.mem_map_of_mem Prod.fst hm
        rw [heq] at hmem
        exact hnd.1 hmem
      rw [findA_apply_not_mem rest _ k hnm, findA_insertA_self]
    · rw [show findA ((k, b0) :: rest) name = findA rest name from by
        simp [findA, hk]] at hb
      cases hf : findA pkgs k with
      | none =>
        simp only [hf]
        exact ih pkgs hnd.2 hb hp
      | some pj2 =>
        simp only [hf]
        exact ih _ hnd.2 hb (by rw [findA_insertA_ne _ _ _ _ hk]; exact hp)

/-- Claim C4: applying a bump to a package whose parsed version is
major.minor.patch yields (major+1).0.0 for Major, major.(minor+1).0 for
Minor, and major.minor.(patch+1) for Patch. -/
theorem claim_C4 (pkgs : List (String × PackageJson))
    (bumps : List (String × BumpType)) (name : String) (pj : PackageJson)
    (b : BumpType) (hnd : (bumps.map Prod.fst).Nodup)
    (hb : findA bumps name = some b) (hp : findA pkgs name = some pj) :
    findA (apply_version_bumps pkgs bumps) name =
      some { pj with version :=
        match b with
        | .Major => ⟨pj.version.major + 1, 0, 0⟩
        | .Minor => ⟨pj.version.major, pj.version.minor + 1, 0⟩
        | .Patch => ⟨pj.version.major, pj.version.minor, pj.version.patch + 1⟩ } := by
  have h := findA_apply_version_bumps bumps pkgs name pj b hnd hb hp
  cases b <;> simpa [bumped] using h

/-- Witness for C4: version 1.2.3 becomes 2.0.0 under Major, 1.3.0 under
Minor and 1.2.4 under Patch. -/
theorem claim_C4_witness :
    findA (apply_version_bumps pkgs123 [("P", BumpType.Major)]) "P" =
      some { pkg123 with version := ⟨2, 0, 0⟩ } ∧
    findA (apply_version_bumps pkgs123 [("P", BumpType.Minor)]) "P" =
      some { pkg123 with version := ⟨1, 3, 0⟩ } ∧
    findA (apply_version_bumps pkgs123 [("P", BumpType.Patch)]) "P" =
      some { pkg123 with version := ⟨1, 2, 4⟩ } :=
  ⟨claim_C4 pkgs123 [("P", BumpType.Major)] "P" pkg123 BumpType.Major
      (by decide) (by decide) (by decide),
   claim_C4 pkgs123 [("P", BumpType.Minor)] "P" pkg123 BumpType.Minor
      (by decide) (by decide) (by decide),
   claim_C4 pkgs123 [("P", BumpType.Patch)] "P" pkg123 BumpType.Patch
      (by decide) (by decide) (by decide)⟩

/-! Claim C6: discovery behaviour on unparseable manifests. -/

/-- Counterexample to C6 as stated: in Project::new (src/project.rs) a
single manifest whose contents fail to parse hits .expect and aborts the
whole run, even though a further parseable manifest remains; nothing is
skipped and no warning is collected. -/
theorem claim_C6_cex :
    project_new_nodes
      [("packages/a", some pjGood), ("packages/b", none),
       ("packages/c", some pjGood2)] = none := rfl

lemma find_workspace_skip (pre post : List (Option PackageJson))
    (pkgs : List (String × PackageJson)) :
    find_workspace_packages (pre ++ none :: post) pkgs =
      find_workspace_packages (pre ++ post) pkgs := by
  simp [find_workspace_packages, List.foldl_append]

lemma project_new_nodes_abort (entries : List (String × Option PackageJsonP))
    (dir : String) (h : (dir, none) ∈ entries) :
    project_new_nodes entries = none := by
  induction entries with
  | nil => cases h
  | cons hd rest ih =>
    obtain ⟨d2, opj⟩ := hd
    cases opj with
    | none => rfl
    | some pj =>
      rcases List.mem_cons.mp h with heq | hmem
      · simp at heq
      · simp [project_new_nodes, ih hmem]

/-- Claim C6, amended: in find_workspace_packages (src/main.rs) a manifest
that fails to parse is skipped, exactly as if the entry were absent, and
discovery of the remaining packages completes, but no warning is
collected; in Project::new (src/project.rs) a manifest parse failure
instead aborts the whole run. -/
theorem claim_C6 :
    (∀ (pre post : List (Option PackageJson))
        (pkgs : List (String × PackageJson)),
      find_workspace_packages (pre ++ none :: post) pkgs =
        find_workspace_packages (pre ++ post) pkgs) ∧
    (∀ (entries : List (String × Option PackageJsonP)) (dir : String),
      (dir, none) ∈ entries → project_new_nodes entries = none) :=
  ⟨find_workspace_skip, project_new_nodes_abort⟩

/-- Witness for C6: a failing manifest between two good ones is skipped by
find_workspace_packages, while Project::new aborts on it. -/
theorem claim_C6_witness :
    find_workspace_packages [some pkgA, none, some pkgB] [] =
      find_workspace_packages [some pkgA, some pkgB] [] ∧
    ("b", (none : Option PackageJsonP)) ∈
      [("a", some pjGood), ("b", (none : Option PackageJsonP))] ∧
    project_new_nodes [("a", some pjGood), ("b", none)] = none :=
  ⟨claim_C6.1 [some pkgA] [some pkgB] [],
   by decide,
   claim_C6.2 [("a", some pjGood), ("b", none)] "b" (by decide)⟩

/-! Claim C10: deletion policy of the version command. -/

/-- Claim C10: with a non-empty parsed ledger, an empty computed bump map
returns success deleting no change-record file; only a non-empty bump map
leads to deletion, and then every parsed change-record file is deleted,
including files that contributed no bump. -/
theorem claim_C10 (changes : List ChangeEntry)
    (packages : List (String × PackageJson))
    (bumps : List (String × BumpType)) (hne : changes ≠ [])
    (hcalc : calculate_version_bumps changes packages = Except.ok bumps) :
    (bumps = [] → version_command changes packages = Except.ok ⟨false, []⟩) ∧
    (bumps ≠ [] → version_command changes packages =
      Except.ok ⟨true, changes.map (fun c => c.file_path)⟩) := by
  have hempty : changes.isEmpty = false := by
    cases changes with
    | nil => exact absurd rfl hne
    | cons c rest => rfl
  constructor
  · intro hb
    subst hb
    simp [version_command, hempty, hcalc]
  · intro hb
    have hbe : bumps.isEmpty = false := by
      cases bumps with
      | nil => exact absurd rfl hb
      | cons x xs => rfl
    simp [version_command, hempty, hcalc, hbe]

/-- Witness for C10: a record naming only the unknown package X yields an
empty bump map and success with no deletion, while the worked A/B example
deletes its one record file. -/
theorem claim_C10_witness :
    calculate_version_bumps unkChanges exPackages = Except.ok [] ∧
    version_command unkChanges exPackages = Except.ok ⟨false, []⟩ ∧
    version_command exChanges exPackages = Except.ok ⟨true, ["chg.md"]⟩ :=
  ⟨rfl,
   (claim_C10 unkChanges exPackages [] (by decide) rfl).1 rfl,
   (claim_C10 exChanges exPackages exBumps (by decide) rfl).2 (by decide)⟩

/-! Claim C5: the direct pass computes an order-independent maximum. -/

lemma gt_iff_rank (a b : BumpType) :
    a.is_greater_than b = true ↔ rank b < rank a := by
  cases a <;> cases b <;> decide

lemma ngt_iff_rank (a b : BumpType) :
    a.is_greater_than b = false ↔ rank a ≤ rank b := by
  cases a <;> cases b <;> decide

lemma rank_inj (a b : BumpType) (h : rank a = rank b) : a = b := by
  cases a <;> cases b <;> simp_all [rank]

lemma maxFold_some_arg :
    ∀ (l : List BumpType) (e : BumpType), ∃ b, maxFold (some e) l = some b := by
  intro l
  induction l with
  | nil => exact fun e => ⟨e, rfl⟩
  | cons s rest ih =>
    intro e
    show ∃ b, maxFold (maxStep (some e) s) rest = some b
    by_cases h : s.is_greater_than e = true
    · simpa [maxStep, h] using ih s
    · simpa [maxStep, h] using ih e

lemma maxFold_char :
    ∀ (l : List BumpType) (o : Option BumpType) (b : BumpType),
    maxFold o l = some b →
    (b ∈ l ∨ o = some b) ∧ (∀ x ∈ l, rank x ≤ rank b) ∧
      (∀ e, o = some e → rank e ≤ rank b) := by
  intro l
  induction l with
  | nil =>
    intro o b h
    refine ⟨Or.inr h, by simp, ?_⟩
    intro e he
    rw [he] at h
    injection h with h2
    rw [h2]
  | cons s rest ih =>
    intro o b h
    have h2 : maxFold (maxStep o s) rest = some b := h
    obtain ⟨hmem, hub, harg⟩ := ih (maxStep o s) b h2
    cases o with
    | none =>
      have hs : rank s ≤ rank b := harg s rfl
      refine ⟨?_, ?_, by simp⟩
      · rcases hmem with hm | hm
        · exact Or.inl (List.mem_cons_of_mem s hm)
        · injection hm with hm2
          exact Or.inl (hm2 ▸ List.mem_cons_self s rest)
      · intro x hx
        rcases List.mem_cons.mp hx with hx2 | hx2
        · exact hx2 ▸ hs
        · exact hub x hx2
    | some e0 =>
      by_cases hgt : s.is_greater_than e0 = true
      · have hms : maxStep (some e0) s = some s := by simp [maxStep, hgt]
        rw [hms] at hmem harg
        have hs : rank s ≤ rank b := harg s rfl
        have he0 : rank e0 ≤ rank b :=
          le_of_lt (lt_of_lt_of_le ((gt_iff_rank s e0).mp hgt) hs)
        refine ⟨?_, ?_, ?_⟩
        · rcases hmem with hm | hm
          · exact Or.inl (List.mem_cons_of_mem s hm)
          · injection hm with hm2
            exact Or.inl (hm2 ▸ List.mem_cons_self s rest)
        · intro x hx
          rcases List.mem_cons.mp hx with hx2 | hx2
          · exact hx2 ▸ hs
          · exact hub x hx2
        · intro e he
          injection he with he2
          exact he2 ▸ he0
      · have hms : maxStep (some e0) s = some e0 := by
          simp [maxStep, hgt]
        rw [hms] at hmem harg
        have he0 : rank e0 ≤ rank b := harg e0 rfl
        have hs : rank s ≤ rank b :=
          le_trans ((ngt_iff_rank s e0).mp (by simpa using hgt)) he0
        refine ⟨?_, ?_, ?_⟩
        · rcases hmem with hm | hm
          · exact Or.inl (List.mem_cons_of_mem s hm)
          · exact Or.inr hm
        · intro x hx
          rcases List.mem_cons.mp hx with hx2 | hx2
          · exact hx2 ▸ hs
          · exact hub x hx2
        · intro e he
          injection he with he2
          exact he2 ▸ he0

lemma maxFold_none_iff (l : List BumpType) :
    maxFold none l = none ↔ l = [] := by
  cases l with
  | nil => simp [maxFold]
  | cons s rest =>
    obtain ⟨b, hb⟩ := maxFold_some_arg rest s
    have hstep : maxFold none (s :: rest) = maxFold (some s) rest := rfl
    simp [hstep, hb]

lemma maxFold_perm (l1 l2 : List BumpType) (hp : l1.Perm l2) :
    maxFold none l1 = maxFold none l2 := by
  cases h1 : maxFold none l1 with
  | none =>
    have he1 : l1 = [] := (maxFold_none_iff l1).mp h1
    subst he1
    have he2 : l2 = [] := hp.nil_eq.symm
    subst he2
    rfl
  | some b1 =>
    cases h2 : maxFold none l2 with
    | none =>
      have he2 : l2 = [] := (maxFold_none_iff l2).mp h2
      subst he2
      have he1 : l1 = [] := hp.symm.nil_eq.symm
      subst he1
      simp [maxFold] at h1
    | some b2 =>
      obtain ⟨hm1, hu1, _⟩ := maxFold_char l1 none b1 h1
      obtain ⟨hm2, hu2, _⟩ := maxFold_char l2 none b2 h2
      have hb1 : b1 ∈ l1 := by
        rcases hm1 with hm | hm
        · exact hm
        · cases hm
      have hb2 : b2 ∈ l2 := by
        rcases hm2 with hm | hm
        · exact hm
        · cases hm
      have hle1 : rank b1 ≤ rank b2 := hu2 b1 (hp.mem_iff.mp hb1)
      have hle2 : rank b2 ≤ rank b1 := hu1 b2 (hp.mem_iff.mpr hb2)
      rw [rank_inj b1 b2 (le_antisymm hle1 hle2)]

lemma findA_directFoldPairs (packages : List (String × PackageJson)) :
    ∀ (pairs : List (String × BumpType)) (vb : List (String × BumpType))
      (name : String),
    findA (directFoldPairs packages vb pairs) name =
      if containsA packages name = true then
        maxFold (findA vb name) (pairSevs pairs name)
      else findA vb name := by
  intro pairs
  induction pairs with
  | nil =>
    intro vb name
    cases hc : containsA packages name <;>
      simp [directFoldPairs, pairSevs, maxFold, hc]
  | cons pb rest ih =>
    intro vb name
    obtain ⟨k, s⟩ := pb
    have hstep : directFoldPairs packages vb ((k, s) :: rest) =
        directFoldPairs packages (directInsert packages vb k s) rest := rfl
    rw [hstep, ih]
    by_cases hk : k = name
    · subst hk
      have hps : pairSevs ((k, s) :: rest) k = s :: pairSevs rest k := by
        simp [pairSevs]
      cases hc : containsA packages k with
      | false => simp [directInsert, hc, hps]
      | true =>
        have hfi : findA (directInsert packages vb k s) k =
            maxStep (findA vb k) s := by
          cases hf : findA vb k with
          | none => simp [directInsert, hc, hf, maxStep, findA_insertA_self]
          | some e =>
            by_cases hgt : s.is_greater_than e = true
            · simp [directInsert, hc, hf, hgt, maxStep, findA_insertA_self]
            · simp [directInsert, hc, hf, hgt, maxStep]
        simp only [hc, if_pos, hps, hfi]
        rfl
    · have hps : pairSevs ((k, s) :: rest) name = pairSevs rest name := by
        simp [pairSevs, hk]
      have hfi : findA (directInsert packages vb k s) name = findA vb name := by
        by_cases hc2 : containsA packages k = true
        · cases hf : findA vb k with
          | none =>
            simp [directInsert, hc2, hf, findA_insertA_ne vb k name s hk]
          | some e =>
            by_cases hgt : s.is_greater_than e = true
            · simp [directInsert, hc2, hf, hgt,
                findA_insertA_ne vb k name s hk]
            · simp [directInsert, hc2, hf, hgt]
        · simp [directInsert, hc2]
      rw [hps, hfi]

lemma findA_changesFold (packages : List (String × PackageJson)) :
    ∀ (changes : List ChangeEntry) (vb : List (String × BumpType))
      (name : String),
    findA (changes.foldl
        (fun vb change => directFoldPairs packages vb change.packages) vb)
      name =
      if containsA packages name = true then
        maxFold (findA vb name) (sevsChanges changes name)
      else findA vb name := by
  intro changes
  induction changes with
  | nil =>
    intro vb name
    cases hc : containsA packages name <;> simp [sevsChanges, maxFold, hc]
  | cons c rest ih =>
    intro vb name
    rw [List.foldl_cons, ih, findA_directFoldPairs]
    have hsc : sevsChanges (c :: rest) name =
        pairSevs c.packages name ++ sevsChanges rest name := rfl
    rw [hsc]
    cases hc : containsA packages name with
    | false => simp
    | true => simp [maxFold, List.foldl_append]

lemma findA_directPass (changes : List ChangeEntry)
    (packages : List (String × PackageJson)) (name : String) :
    findA (directPass changes packages) name =
      if containsA packages name = true then
        maxFold none (sevsChanges changes name)
      else none :=
  findA_changesFold packages changes [] name

lemma sevsChanges_perm {l1 l2 : List ChangeEntry} (hp : l1.Perm l2)
    (name : String) :
    (sevsChanges l1 name).Perm (sevsChanges l2 name) := by
  induction hp with
  | nil => exact List.Perm.refl _
  | cons c _ ih => exact List.Perm.append_left (pairSevs c.packages name) ih
  | swap x y l =>
    show (pairSevs y.packages name ++
        (pairSevs x.packages name ++ sevsChanges l name)).Perm
      (pairSevs x.packages name ++
        (pairSevs y.packages name ++ sevsChanges l name))
    rw [← List.append_assoc, ← List.append_assoc]
    exact List.Perm.append_right _ (List.perm_append_comm)
  | trans _ _ ih1 ih2 => exact ih1.trans ih2

/-- Claim C5: the direct pass assigns each named known package exactly a
maximum of the severities requested for it across all records under
Major > Minor > Patch, and the assignment does not depend on the order of
the records. -/
theorem claim_C5 (packages : List (String × PackageJson)) (name : String) :
    (∀ (changes : List ChangeEntry) (b : BumpType),
      findA (directPass changes packages) name = some b →
      containsA packages name = true ∧ b ∈ sevsChanges changes name ∧
        ∀ x ∈ sevsChanges changes name, x.is_greater_than b = false) ∧
    (∀ changes : List ChangeEntry, containsA packages name = true →
      sevsChanges changes name ≠ [] →
      ∃ b, findA (directPass changes packages) name = some b) ∧
    (∀ changes1 changes2 : List ChangeEntry, changes1.Perm changes2 →
      findA (directPass changes1 packages) name =
        findA (directPass changes2 packages) name) := by
  refine ⟨?_, ?_, ?_⟩
  · intro changes b h
    rw [findA_directPass] at h
    cases hc : containsA packages name with
    | false => rw [hc] at h; simp at h
    | true =>
      rw [hc, if_pos rfl] at h
      obtain ⟨hmem, hub, _⟩ := maxFold_char _ none b h
      refine ⟨rfl, ?_, ?_⟩
      · rcases hmem with hm | hm
        · exact hm
        · cases hm
      · intro x hx
        rw [ngt_iff_rank]
        exact hub x hx
  · intro changes hc hne
    rw [findA_directPass, if_pos hc]
    cases hl : sevsChanges changes name with
    | nil => exact absurd hl hne
    | cons s rest =>
      have hstep : maxFold none (s :: rest) = maxFold (some s) rest := rfl
      rw [hstep]
      exact maxFold_some_arg rest s
  · intro c1 c2 hp
    rw [findA_directPass, findA_directPass]
    cases hc : containsA packages name with
    | false => rfl
    | true =>
      rw [if_pos rfl, if_pos rfl]
      exact maxFold_perm _ _ (sevsChanges_perm hp name)

/-- Witness for C5: two records for A with Minor and Patch yield Minor in
either order. -/
theorem claim_C5_witness :
    findA (directPass [minorChange, patchChange] exPackages) "A" =
      some BumpType.Minor ∧
    findA (directPass [patchChange, minorChange] exPackages) "A" =
      findA (directPass [minorChange, patchChange] exPackages) "A" :=
  ⟨rfl,
   (claim_C5 exPackages "A").2.2 [patchChange, minorChange]
     [minorChange, patchChange] (List.Perm.swap minorChange patchChange [])⟩

/-! Claims C1 and C2: the transitive pass and its termination. -/

lemma passDeps_true (current : List (String × BumpType)) (pname : String) :
    ∀ (deps : List String) (vb : List (String × BumpType)),
    (passDeps current pname deps vb true).2 = true := by
  intro deps
  induction deps with
  | nil => intro vb; rfl
  | cons dep rest ih =>
    intro vb
    cases hf : findA current dep with
    | none => simpa [passDeps, hf] using ih vb
    | some db =>
      cases hv : findA vb pname with
      | none => simpa [passDeps, hf, hv] using ih _
      | some e =>
        by_cases hgt : db.is_greater_than e = true
        · simpa [passDeps, hf, hv, hgt] using ih _
        · simpa [passDeps, hf, hv, hgt] using ih vb

lemma passDeps_false (current : List (String × BumpType)) (pname : String) :
    ∀ (deps : List String) (vb vb2 : List (String × BumpType))
      (changed : Bool),
    passDeps current pname deps vb changed = (vb2, false) →
    changed = false ∧ vb2 = vb ∧
      ∀ dep ∈ deps, ∀ s, findA current dep = some s →
        ∃ s2, findA vb pname = some s2 ∧ s.is_greater_than s2 = false := by
  intro deps
  induction deps with
  | nil =>
    intro vb vb2 changed h
    injection h with h1 h2
    exact ⟨h2, h1.symm, by simp⟩
  | cons dep rest ih =>
    intro vb vb2 changed h
    cases hf : findA current dep with
    | none =>
      rw [show passDeps current pname (dep :: rest) vb changed =
          passDeps current pname rest vb changed from by
        simp [passDeps, hf]] at h
      obtain ⟨hch, hvb, hrest⟩ := ih vb vb2 changed h
      refine ⟨hch, hvb, ?_⟩
      intro d hd s hs
      rcases List.mem_cons.mp hd with hd2 | hd2
      · subst hd2
        rw [hf] at hs
        cases hs
      · exact hrest d hd2 s hs
    | some db =>
      cases hv : findA vb pname with
      | none =>
        rw [show passDeps current pname (dep :: rest) vb changed =
            passDeps current pname rest (insertA vb pname db) true from by
          simp [passDeps, hf, hv]] at h
        have htrue := passDeps_true current pname rest (insertA vb pname db)
        rw [h] at htrue
        cases htrue
      | some e =>
        by_cases hgt : db.is_greater_than e = true
        · rw [show passDeps current pname (dep :: rest) vb changed =
              passDeps current pname rest (insertA vb pname db) true from by
            simp [passDeps, hf, hv, hgt]] at h
          have htrue := passDeps_true current pname rest (insertA vb pname db)
          rw [h] at htrue
          cases htrue
        · rw [show passDeps current pname (dep :: rest) vb changed =
              passDeps current pname rest vb changed from by
            simp [passDeps, hf, hv, hgt]] at h
          obtain ⟨hch, hvb, hrest⟩ := ih vb vb2 changed h
          simp only [hv] at hrest
          refine ⟨hch, hvb, ?_⟩
          intro d hd s hs
          rcases List.mem_cons.mp hd with hd2 | hd2
          · subst hd2
            rw [hf] at hs
            injection hs with hs2
            subst hs2
            exact ⟨e, rfl, by simpa using hgt⟩
          · exact hrest d hd2 s hs

lemma passPkgs_true (current : List (String × BumpType)) :
    ∀ (pkgs : List (String × PackageJson)) (vb : List (String × BumpType)),
    (passPkgs current pkgs vb true).2 = true := by
  intro pkgs
  induction pkgs with
  | nil => intro vb; rfl
  | cons p rest ih =>
    intro vb
    obtain ⟨pname, pj⟩ := p
    show (passPkgs current rest
      (passDeps current pname (depKeys pj) vb true).1
      (passDeps current pname (depKeys pj) vb true).2).2 = true
    rw [passDeps_true current pname (depKeys pj) vb]
    exact ih _

lemma passPkgs_false (current : List (String × BumpType)) :
    ∀ (pkgs : List (String × PackageJson))
      (vb vb2 : List (String × BumpType)) (changed : Bool),
    passPkgs current pkgs vb changed = (vb2, false) →
    changed = false ∧ vb2 = vb ∧
      ∀ p ∈ pkgs, ∀ dep ∈ depKeys p.2, ∀ s, findA current dep = some s →
        ∃ s2, findA vb p.1 = some s2 ∧ s.is_greater_than s2 = false := by
  intro pkgs
  induction pkgs with
  | nil =>
    intro vb vb2 changed h
    injection h with h1 h2
    exact ⟨h2, h1.symm, by simp⟩
  | cons p rest ih =>
    intro vb vb2 changed h
    obtain ⟨pname, pj⟩ := p
    have h2 : passPkgs current rest
        (passDeps current pname (depKeys pj) vb changed).1
        (passDeps current pname (depKeys pj) vb changed).2 = (vb2, false) := h
    obtain ⟨hch2, hvb2, hrest⟩ := ih _ vb2 _ h2
    have hpd : passDeps current pname (depKeys pj) vb changed =
        ((passDeps current pname (depKeys pj) vb changed).1, false) := by
      rw [← hch2]
    obtain ⟨hch, hr1, hhead⟩ :=
      passDeps_false current pname (depKeys pj) vb _ changed hpd
    refine ⟨hch, by rw [hvb2, hr1], ?_⟩
    intro q hq dep hdep s hs
    rcases List.mem_cons.mp hq with hq2 | hq2
    · subst hq2
      exact hhead dep hdep s hs
    · rw [hr1] at hrest
      exact hrest q hq2 dep hdep s hs

lemma onePass_fixed (packages : List (String × PackageJson))
    (prev vb : List (String × BumpType))
    (h : onePass packages prev = (vb, false)) :
    vb = prev ∧ noPending packages vb := by
  obtain ⟨_, hvb, hprop⟩ := passPkgs_false prev packages prev vb false h
  subst hvb
  exact ⟨rfl, hprop⟩

lemma transLoop_ok (packages : List (String × PackageJson)) :
    ∀ (fuel iteration : Nat) (changed : Bool)
      (vb : List (String × BumpType)),
    100 < iteration + fuel →
    (transLoop packages fuel iteration changed vb).1 < 100 →
    (changed = false ∧
      (transLoop packages fuel iteration changed vb).2 = vb) ∨
      ∃ prev, onePass packages prev =
        ((transLoop packages fuel iteration changed vb).2, false) := by
  intro fuel
  induction fuel with
  | zero =>
    intro iteration changed vb hbound hlt
    simp only [transLoop] at hlt
    omega
  | succ fuel ih =>
    intro iteration changed vb hbound hlt
    by_cases hcond : changed = true ∧ iteration < 100
    · have hstep : transLoop packages (fuel + 1) iteration changed vb =
          transLoop packages fuel (iteration + 1) (onePass packages vb).2
            (onePass packages vb).1 := by
        simp only [transLoop]
        rw [if_pos hcond]
      rw [hstep] at hlt ⊢
      rcases ih (iteration + 1) (onePass packages vb).2 (onePass packages vb).1
          (by omega) hlt with ⟨hch, hvb⟩ | ⟨prev, hprev⟩
      · right
        refine ⟨vb, ?_⟩
        rw [hvb, ← hch]
      · exact Or.inr ⟨prev, hprev⟩
    · have hstep : transLoop packages (fuel + 1) iteration changed vb =
          (iteration, vb) := by
        simp only [transLoop]
        rw [if_neg hcond]
      rw [hstep] at hlt ⊢
      left
      refine ⟨?_, rfl⟩
      cases hchv : changed
      · rfl
      · exact absurd ⟨hchv, hlt⟩ hcond

lemma calc_ok_fixed (changes : List ChangeEntry)
    (packages : List (String × PackageJson))
    (vb : List (String × BumpType))
    (h : calculate_version_bumps changes packages = Except.ok vb) :
    noPending packages vb := by
  unfold calculate_version_bumps at h
  by_cases hge :
      (transLoop packages 101 0 true (directPass changes packages)).1 ≥ 100
  · rw [if_pos hge] at h
    cases h
  · rw [if_neg hge] at h
    injection h with h2
    rcases transLoop_ok packages 101 0 true (directPass changes packages)
        (by omega) (by omega) with ⟨hch, _⟩ | ⟨prev, hprev⟩
    · cases hch
    · rw [h2] at hprev
      exact (onePass_fixed packages prev vb hprev).2

/-- Claim C1: whenever calculate_version_bumps succeeds, the computed map
gives each dependent package at least the severity held by any of its
scanned dependencies: a dependency holding severity s forces the
dependent to hold some severity s2 with s not greater than s2. -/
theorem claim_C1 (changes : List ChangeEntry)
    (packages : List (String × PackageJson))
    (vb : List (String × BumpType))
    (h : calculate_version_bumps changes packages = Except.ok vb) :
    ∀ p ∈ packages, ∀ dep ∈ depKeys p.2, ∀ s, findA vb dep = some s →
      ∃ s2, findA vb p.1 = some s2 ∧ s.is_greater_than s2 = false :=
  calc_ok_fixed changes packages vb h

/-- Witness for C1: packages A (no dependencies) and B (depending on A)
with a single Patch record for A compute exactly the map
A to Patch, B to Patch, and B holds at least the severity of A. -/
theorem claim_C1_witness :
    calculate_version_bumps exChanges exPackages = Except.ok exBumps ∧
    ∃ s2, findA exBumps "B" = some s2 ∧
      BumpType.Patch.is_greater_than s2 = false :=
  ⟨rfl,
   claim_C1 exChanges exPackages exBumps rfl ("B", pkgB) (by decide) "A"
     (by decide) BumpType.Patch (by decide)⟩

/-- Counterexample to C2 as stated: on the dependency cycle where A
depends on B and B depends on A, with a Patch recorded for A, propagation
converges and returns the map A to Patch, B to Patch successfully; no
dependency-cycle error is reported. -/
theorem claim_C2_cex :
    calculate_version_bumps exChanges cycPackages = Except.ok exBumps := rfl

/-- Claim C2, amended: bump propagation always terminates, and it never
silently truncates: either it returns a severity map that is a true fixed
point of the transitive pass, or it reports the dependency-cycle error of
the iteration ceiling.  A dependency cycle by itself does not force the
error; a cyclic graph whose severities converge returns successfully. -/
theorem claim_C2 (changes : List ChangeEntry)
    (packages : List (String × PackageJson)) :
    (∃ vb, calculate_version_bumps changes packages = Except.ok vb ∧
      noPending packages vb) ∨
    calculate_version_bumps changes packages =
      Except.error cycleErrorMsg := by
  by_cases hge :
      (transLoop packages 101 0 true (directPass changes packages)).1 ≥ 100
  · right
    simp [calculate_version_bumps, hge]
  · left
    refine ⟨(transLoop packages 101 0 true (directPass changes packages)).2,
      ?_, ?_⟩
    · simp [calculate_version_bumps, hge]
    · exact calc_ok_fixed changes packages _
        (by simp [calculate_version_bumps, hge])

/-! Claims C3 and C9: the graph engine. -/

lemma edgeTargets_none (es : List Edge) (d : Direction) (fuel : Nat) :
    edgeTargets es d fuel none = [] := by
  cases fuel <;> rfl

lemma decr_append (es : List Edge) (e2 : Edge) (hd : Decr es)
    (h2 : ∀ j, e2.next_edge = some j → j < es.length) :
    Decr (es ++ [e2]) := by
  intro i e he j hj
  by_cases hi : i < es.length
  · rw [List.getElem?_append_left hi] at he
    exact hd i e he j hj
  · have hlen : i < (es ++ [e2]).length := by
      by_contra hge
      rw [List.getElem?_eq_none (by omega)] at he
      cases he
    have hi2 : i = es.length := by
      simp [List.length_append] at hlen
      omega
    subst hi2
    rw [List.getElem?_concat_length] at he
    injection he with he2
    subst he2
    exact h2 j hj

lemma edgeTargets_fuel (es : List Edge) (d : Direction) (hd : Decr es) :
    ∀ i, i < es.length → ∀ f, i < f →
    edgeTargets es d f (some i) = edgeTargets es d (i + 1) (some i) := by
  intro i
  induction i using Nat.strong_induction_on with
  | _ i ih =>
    intro hi f hf
    obtain ⟨f, rfl⟩ : ∃ f2, f = f2 + 1 := ⟨f - 1, by omega⟩
    obtain ⟨e, he⟩ : ∃ e, es[i]? = some e := by
      rw [List.getElem?_eq_getElem hi]
      exact ⟨_, rfl⟩
    simp only [edgeTargets, he]
    cases hne : e.next_edge with
    | none => simp [hne, edgeTargets_none]
    | some j =>
      have hj : j < i := hd i e he j hne
      have h1 : edgeTargets es d f (some j) =
          edgeTargets es d (j + 1) (some j) :=
        ih j hj (by omega) f (by omega)
      have h2 : edgeTargets es d i (some j) =
          edgeTargets es d (j + 1) (some j) :=
        ih j hj (by omega) i (by omega)
      rw [h1, h2]

lemma edgeTargets_append (es : List Edge) (e2 : Edge) (d : Direction)
    (hd : Decr es) :
    ∀ (fuel i : Nat), i < es.length →
    edgeTargets (es ++ [e2]) d fuel (some i) =
      edgeTargets es d fuel (some i) := by
  intro fuel
  induction fuel with
  | zero => intro i hi; rfl
  | succ fuel ih =>
    intro i hi
    obtain ⟨e, he⟩ : ∃ e, es[i]? = some e := by
      rw [List.getElem?_eq_getElem hi]
      exact ⟨_, rfl⟩
    simp only [edgeTargets, List.getElem?_append_left hi, he]
    cases hne : e.next_edge with
    | none => simp [hne, edgeTargets_none]
    | some j =>
      have hj : j < i := hd i e he j hne
      rw [ih j (by omega)]

lemma applyOp_chain {T : Type} (g g1 : Graph T) (op : GraphOp T)
    (h : applyOp g op = some g1) (hwf : WFGraph g) :
    WFGraph g1 ∧
      ∀ n d, chainOf g1 n d = opContrib op n d ++ chainOf g n d := by
  cases op with
  | addNode data =>
    have hg : g1 = ⟨g.nodes ++ [⟨data, none⟩], g.edges⟩ := by
      have h0 : applyOp g (GraphOp.addNode data) =
          some ⟨g.nodes ++ [⟨data, none⟩], g.edges⟩ := rfl
      rw [h0] at h
      injection h with h2
      exact h2.symm
    subst hg
    constructor
    · constructor
      · exact hwf.1
      · intro n node hn i hfe
        by_cases hlt : n < g.nodes.length
        · rw [show (g.nodes ++ [(⟨data, none⟩ : Node T)])[n]? = g.nodes[n]?
              from List.getElem?_append_left hlt] at hn
          exact hwf.2 n node hn i hfe
        · by_cases heq : n = g.nodes.length
          · subst heq
            rw [List.getElem?_concat_length] at hn
            injection hn with hn2
            rw [← hn2] at hfe
            simp at hfe
          · have hnone : (g.nodes ++ [(⟨data, none⟩ : Node T)])[n]? = none :=
              List.getElem?_eq_none (by simp [List.length_append]; omega)
            rw [hnone] at hn
            cases hn
    · intro n d
      rcases hn : g.nodes[n]? with _ | node
      · have hge : g.nodes.length ≤ n := by
          by_contra hlt
          rw [List.getElem?_eq_getElem (by omega)] at hn
          cases hn
        by_cases heq : n = g.nodes.length
        · subst heq
          simp [chainOf, List.getElem?_concat_length, hn, edgeTargets_none,
            opContrib]
        · have hnone : (g.nodes ++ [(⟨data, none⟩ : Node T)])[n]? = none :=
            List.getElem?_eq_none (by simp [List.length_append]; omega)
          simp [chainOf, hnone, hn, opContrib]
      · have hlt : n < g.nodes.length := by
          by_contra hge
          rw [List.getElem?_eq_none (by omega)] at hn
          cases hn
        simp [chainOf, List.getElem?_append_left hlt, hn, opContrib]
  | addEdge s t d0 =>
    cases hs : g.nodes[s]? with
    | none =>
      rw [show applyOp g (GraphOp.addEdge s t d0) = none from by
        simp [applyOp, Graph.add_edge, hs]] at h
      cases h
    | some node0 =>
      have hg : g1 = ⟨g.nodes.set s { node0 with
            first_edge := some g.edges.length },
          g.edges ++ [⟨t, d0, node0.first_edge⟩]⟩ := by
        rw [show applyOp g (GraphOp.addEdge s t d0) =
            some ⟨g.nodes.set s { node0 with
                first_edge := some g.edges.length },
              g.edges ++ [⟨t, d0, node0.first_edge⟩]⟩ from by
          simp [applyOp, Graph.add_edge, hs]] at h
        injection h with h2
        exact h2.symm
      subst hg
      have hslt : s < g.nodes.length := by
        by_contra hge
        rw [List.getElem?_eq_none (by omega)] at hs
        cases hs
      have hsub : ∀ d2 : Direction,
          edgeTargets (g.edges ++ [⟨t, d0, node0.first_edge⟩]) d2
            g.edges.length node0.first_edge =
          edgeTargets g.edges d2 g.edges.length node0.first_edge := by
        intro d2
        cases hfe : node0.first_edge with
        | none => simp [edgeTargets_none]
        | some j =>
          exact edgeTargets_append g.edges _ d2 hwf.1 g.edges.length j
            (hwf.2 s node0 hs j hfe)
      constructor
      · constructor
        · apply decr_append _ _ hwf.1
          intro j hj
          exact hwf.2 s node0 hs j hj
        · intro n node hn i hfe
          by_cases hns : n = s
          · subst hns
            rw [List.getElem?_set_self hslt] at hn
            injection hn with hn2
            rw [← hn2] at hfe
            simp at hfe
            simp [List.length_append, hfe]
          · rw [List.getElem?_set_ne (fun he => hns he.symm)] at hn
            have := hwf.2 n node hn i hfe
            simp [List.length_append]
            omega
      · intro n d
        by_cases hns : n = s
        · subst hns
          have hset : (g.nodes.set n { node0 with
              first_edge := some g.edges.length })[n]? =
              some { node0 with first_edge := some g.edges.length } :=
            List.getElem?_set_self hslt
          have hlen : (g.edges ++ [(⟨t, d0, node0.first_edge⟩ : Edge)]).length =
              g.edges.length + 1 := by
            simp [List.length_append]
          by_cases hdir : d0 = d
          · subst hdir
            have hcontrib : opContrib (T := T) (GraphOp.addEdge n t d0) n d0 = [t] := by
              simp [opContrib]
            rw [hcontrib]
            simp only [chainOf, hset, hs, hlen, edgeTargets,
              List.getElem?_concat_length]
            simp [hsub d0]
          · have hcontrib : opContrib (T := T) (GraphOp.addEdge n t d0) n d = [] := by
              simp [opContrib, hdir]
            rw [hcontrib]
            simp only [chainOf, hset, hs, hlen, edgeTargets,
              List.getElem?_concat_length]
            simp [hdir, hsub d]
        · have hset : (g.nodes.set s { node0 with
              first_edge := some g.edges.length })[n]? = g.nodes[n]? :=
            List.getElem?_set_ne (fun he => hns he.symm)
          have hcontrib : opContrib (T := T) (GraphOp.addEdge s t d0) n d = [] := by
            have hcond : ¬(s = n ∧ d0 = d) := fun hc => hns hc.1.symm
            simp [opContrib, hcond]
          rcases hn : g.nodes[n]? with _ | node
          · simp [chainOf, hset, hn, hcontrib]
          · have hlen : (g.edges ++ [(⟨t, d0, node0.first_edge⟩ : Edge)]).length =
                g.edges.length + 1 := by
              simp [List.length_append]
            cases hfe : node.first_edge with
            | none => simp [chainOf, hset, hn, hfe, edgeTargets_none, hcontrib]
            | some j =>
              have hj : j < g.edges.length := hwf.2 n node hn j hfe
              have ha : edgeTargets (g.edges ++ [⟨t, d0, node0.first_edge⟩]) d
                  (g.edges.length + 1) (some j) =
                  edgeTargets g.edges d (g.edges.length + 1) (some j) :=
                edgeTargets_append g.edges _ d hwf.1 (g.edges.length + 1) j hj
              have hb : edgeTargets g.edges d (g.edges.length + 1) (some j) =
                  edgeTargets g.edges d (j + 1) (some j) :=
                edgeTargets_fuel g.edges d hwf.1 j hj (g.edges.length + 1)
                  (by omega)
              have hc : edgeTargets g.edges d g.edges.length (some j) =
                  edgeTargets g.edges d (j + 1) (some j) :=
                edgeTargets_fuel g.edges d hwf.1 j hj g.edges.length
                  (by omega)
              simp [chainOf, hset, hn, hfe, hlen, hcontrib, ha, hb, hc]

lemma addedTargets_cons {T : Type} (op : GraphOp T) (rest : List (GraphOp T))
    (n : Nat) (d : Direction) :
    addedTargets (op :: rest) n d =
      addedTargets rest n d ++ opContrib op n d := by
  unfold addedTargets opContrib
  cases op with
  | addNode data => simp [List.filterMap_cons]
  | addEdge s t d2 =>
    by_cases hc : s = n ∧ d2 = d
    · simp [List.filterMap_cons, hc]
    · simp [List.filterMap_cons, hc]

lemma applyOps_chain {T : Type} :
    ∀ (ops : List (GraphOp T)) (g g2 : Graph T),
    applyOps ops g = some g2 → WFGraph g →
    WFGraph g2 ∧
      ∀ n d, chainOf g2 n d = addedTargets ops n d ++ chainOf g n d := by
  intro ops
  induction ops with
  | nil =>
    intro g g2 h hwf
    injection h with h2
    subst h2
    exact ⟨hwf, fun n d => by simp [addedTargets]⟩
  | cons op rest ih =>
    intro g g2 h hwf
    cases hop : applyOp g op with
    | none =>
      rw [show applyOps (op :: rest) g = none from by
        simp [applyOps, hop]] at h
      cases h
    | some g1 =>
      rw [show applyOps (op :: rest) g = applyOps rest g1 from by
        simp [applyOps, hop]] at h
      obtain ⟨hwf1, hchain1⟩ := applyOp_chain g g1 op hop hwf
      obtain ⟨hwf2, hchain2⟩ := ih g1 g2 h hwf1
      refine ⟨hwf2, ?_⟩
      intro n d
      rw [hchain2, hchain1 n d, addedTargets_cons, List.append_assoc]

lemma wf_empty {T : Type} : WFGraph (Graph.empty : Graph T) := by
  constructor
  · intro i e he j hj
    simp [Graph.empty] at he
  · intro n node hn i hfe
    simp [Graph.empty] at hn

/-- Claim C3: after any successful sequence of add_node and add_edge calls
starting from the empty graph, the edges iterator for node n and
direction d yields exactly the targets of the edges added for source n
with direction d, most recently added first, and never a target added
with the opposite direction. -/
theorem claim_C3 {T : Type} (ops : List (GraphOp T)) (g : Graph T) (n : Nat)
    (d : Direction) (h : applyOps ops Graph.empty = some g)
    (hn : n < g.nodes.length) :
    Graph.edgesOf g n d = some (addedTargets ops n d) := by
  obtain ⟨_, hchain⟩ := applyOps_chain ops Graph.empty g h wf_empty
  have hc := hchain n d
  have hemp : chainOf (Graph.empty : Graph T) n d = [] := by
    simp [chainOf, Graph.empty]
  rw [hemp, List.append_nil] at hc
  obtain ⟨node, hnode⟩ : ∃ node, g.nodes[n]? = some node := by
    rw [List.getElem?_eq_getElem hn]
    exact ⟨_, rfl⟩
  simp only [chainOf, hnode] at hc
  simp only [Graph.edgesOf, hnode, hc]

/-- Witness for C3: the concrete build opsW yields, for node 0 and
Outgoing, exactly the Outgoing targets in reverse insertion order with
the Incoming edge skipped. -/
theorem claim_C3_witness :
    applyOps opsW Graph.empty = some gW ∧
    Graph.edgesOf gW 0 Direction.Outgoing =
      some (addedTargets opsW 0 Direction.Outgoing) ∧
    addedTargets opsW 0 Direction.Outgoing = [0, 1] :=
  ⟨rfl, claim_C3 opsW gW 0 Direction.Outgoing rfl (by decide), by decide⟩

/-- Claim C9: add_edge validates only the source: with a valid source it
accepts any target, even one no add_node ever returned, and afterwards
the edges iterator yields that out-of-range target while get_node on it
returns none. -/
theorem claim_C9 {T : Type} (g : Graph T) (s t : Nat) (d : Direction)
    (hs : s < g.nodes.length) (ht : g.nodes.length ≤ t) :
    (∀ s2, g.nodes.length ≤ s2 → g.add_edge s2 t d = none) ∧
    ∃ g2, g.add_edge s t d = some g2 ∧
      (∃ l, Graph.edgesOf g2 s d = some l ∧ t ∈ l) ∧
      g2.get_node t = none := by
  constructor
  · intro s2 hs2
    simp [Graph.add_edge, List.getElem?_eq_none hs2]
  · obtain ⟨node0, hn0⟩ : ∃ node, g.nodes[s]? = some node := by
      rw [List.getElem?_eq_getElem hs]
      exact ⟨_, rfl⟩
    refine ⟨⟨g.nodes.set s { node0 with first_edge := some g.edges.length },
      g.edges ++ [⟨t, d, node0.first_edge⟩]⟩, ?_, ?_, ?_⟩
    · simp [Graph.add_edge, hn0]
    · have hset : (g.nodes.set s { node0 with
          first_edge := some g.edges.length })[s]? =
          some { node0 with first_edge := some g.edges.length } :=
        List.getElem?_set_self hs
      have hlen : (g.edges ++ [(⟨t, d, node0.first_edge⟩ : Edge)]).length =
          g.edges.length + 1 := by
        simp [List.length_append]
      refine ⟨t :: edgeTargets (g.edges ++ [(⟨t, d, node0.first_edge⟩ : Edge)])
          d g.edges.length node0.first_edge, ?_, List.mem_cons_self _ _⟩
      simp only [Graph.edgesOf, hset, hlen, edgeTargets,
        List.getElem?_concat_length]
      simp
    · have : (g.nodes.set s { node0 with
          first_edge := some g.edges.length }).length ≤ t := by
        simp [List.length_set]
        omega
      simp [Graph.get_node, List.getElem?_eq_none this]

/-- Witness for C9: a one-node graph accepts an edge to the absent index 1
and then reports it from the iterator while get_node 1 is none. -/
theorem claim_C9_witness :
    ∃ g2, oneNodeGraph.add_edge 0 1 Direction.Outgoing = some g2 ∧
      (∃ l, Graph.edgesOf g2 0 Direction.Outgoing = some l ∧ 1 ∈ l) ∧
      g2.get_node 1 = none :=
  (claim_C9 oneNodeGraph 0 1 Direction.Outgoing (by decide) (by decide)).2

end Changement
